import Mathlib

/-!
# A verification development for `zipfix.py`

This file gives a shallow embedding, in Lean 4, of the core repair pass of
the `zipfix` ZIP-recovery tool, and proves properties of that embedding.

The embedding models:
* a byte buffer as a `List Nat` (each element one byte value);
* Python slicing `data[a:b]` (with non-negative indices) as `pySlice`;
* `struct.unpack('<H', ...)` / `struct.unpack('<I', ...)` as `unpack16` /
  `unpack32`, returning `none` exactly when the sliced window is shorter
  than the required width (in Python `struct.error` is raised then);
* `bytes.find` / `bytes.rfind` as fuel-based forward / backward searches;
* `find_file_signatures`, `extract_filename_from_header` and `repair_zip`
  line by line from the source, including the control flow of the
  `try`/`except` blocks and the cross-iteration lifetime of the Python
  local variable `filename_length` inside `repair_zip` (modelled as an
  `Option Nat` threaded through the loop: `none` while the name is still
  unbound, in which case referencing it raises `NameError`, which the bare
  inner `except:` catches).

File-system side effects are abstracted: creating the output container is
modelled by returning `some (outputPath, perEntryResults)`, and returning
`none` models the early `return False` where no container is created.
Writing one entry into the container is modelled by a `some` per-entry
result; a caught per-entry exception is the per-entry result `none`.
-/

namespace Zipfix

/-- Python slicing `data[a:b]` for `0 ≤ a`, `0 ≤ b`: the bytes at indices
`i` with `a ≤ i < min b data.length`; empty when `a ≥ b`. -/
def pySlice (data : List Nat) (a b : Nat) : List Nat :=
  (data.take b).drop a

/-- `struct.unpack('<H', data[o:o+2])[0]`: little-endian 16-bit read.
`none` models `struct.error` (slice shorter than 2 bytes). -/
def unpack16 (data : List Nat) (o : Nat) : Option Nat :=
  if o + 2 ≤ data.length then
    some (data.getD o 0 + 256 * data.getD (o + 1) 0)
  else none

/-- `struct.unpack('<I', data[o:o+4])[0]`: little-endian 32-bit read.
`none` models `struct.error` (slice shorter than 4 bytes). -/
def unpack32 (data : List Nat) (o : Nat) : Option Nat :=
  if o + 4 ≤ data.length then
    some (data.getD o 0 + 256 * data.getD (o + 1) 0 +
          65536 * data.getD (o + 2) 0 + 16777216 * data.getD (o + 3) 0)
  else none

/-- The byte pattern `pat` occurs in `data` at position `i`. -/
def matchesAt (data pat : List Nat) (i : Nat) : Bool :=
  (data.drop i).take pat.length == pat

/-- `b'PK\x03\x04'`, the local-file-header magic. -/
def LOCAL_FILE_HEADER : List Nat := [0x50, 0x4B, 0x03, 0x04]

/-- `b'PK\x01\x02'`, the central-directory-header magic. -/
def CENTRAL_DIR_HEADER : List Nat := [0x50, 0x4B, 0x01, 0x02]

/-- `b'PK\x05\x06'`, the end-of-central-directory magic. -/
def END_OF_CENTRAL_DIR : List Nat := [0x50, 0x4B, 0x05, 0x06]

/-- Fuel-based scan underlying `pyFind`: the least `j ≥ i`, `j < i + fuel`,
with a match at `j`. -/
def pyFindAux (data pat : List Nat) : Nat → Nat → Option Nat
  | _, 0 => none
  | i, fuel + 1 =>
    if matchesAt data pat i then some i else pyFindAux data pat (i + 1) fuel

/-- `data.find(pat, start)`: least occurrence position `≥ start`, or `none`.
The fuel `data.length + 1 - start` covers every position where a nonempty
pattern can still occur. -/
def pyFind (data pat : List Nat) (start : Nat) : Option Nat :=
  pyFindAux data pat start (data.length + 1 - start)

/-- The scanning loop of `find_file_signatures` for one 4-byte magic:
`offset = 0`, then repeatedly `offset = data.find(pat, offset)`, append,
`offset += 4`. Structured with fuel (one unit per found match; the number
of matches of a 4-byte pattern is at most `data.length`, so
`data.length + 1` units never run out). -/
def findAllFrom (data pat : List Nat) : Nat → Nat → List Nat
  | _, 0 => []
  | start, fuel + 1 =>
    match pyFind data pat start with
    | none => []
    | some o => o :: findAllFrom data pat (o + 4) fuel

/-- All match positions found by the repeated-forward-search loop. -/
def findAll (data pat : List Nat) : List Nat :=
  findAllFrom data pat 0 (data.length + 1)

/-- Backward search from position `k` down to `0`: greatest `j ≤ k` with a
match at `j`, or `none`. -/
def rfindDown (data pat : List Nat) : Nat → Option Nat
  | 0 => if matchesAt data pat 0 then some 0 else none
  | k + 1 =>
    if matchesAt data pat (k + 1) then some (k + 1) else rfindDown data pat k

/-- `data.rfind(pat)`: last occurrence position, or `none` (Python's `-1`).
A nonempty pattern can only occur at positions `≤ data.length`, so starting
the downward search at `data.length` finds the true last occurrence. -/
def pyRFind (data pat : List Nat) : Option Nat :=
  rfindDown data pat data.length

/-- The replacement character U+FFFD substituted by `errors='replace'`. -/
def replChar : Char := Char.ofNat 0xFFFD

/-- Is `c` a UTF-8 continuation byte (`0x80..0xBF`)? -/
def contByte (c : Nat) : Bool :=
  0x80 ≤ c && c ≤ 0xBF

/-- Validity of the first continuation byte after lead byte `b`, with the
range restrictions ruling out overlong encodings (`0xE0`, `0xF0`),
surrogates (`0xED`) and code points above U+10FFFF (`0xF4`). -/
def validCont1 (b c : Nat) : Bool :=
  if b = 0xE0 then 0xA0 ≤ c && c ≤ 0xBF
  else if b = 0xED then 0x80 ≤ c && c ≤ 0x9F
  else if b = 0xF0 then 0x90 ≤ c && c ≤ 0xBF
  else if b = 0xF4 then 0x80 ≤ c && c ≤ 0x8F
  else contByte c

/-- One fuel unit per consumed lead byte. Python's UTF-8 decoder with
`errors='replace'` substitutes one U+FFFD per maximal subpart of an
ill-formed subsequence: a lead byte whose next byte is not an acceptable
continuation yields a replacement consuming the lead byte alone, while a
well-formed but truncated multi-byte prefix yields a single replacement
consuming the whole prefix. Every step consumes at least one byte, so
fuel `l.length` never runs out. -/
def utf8DecodeAux : Nat → List Nat → List Char
  | 0, _ => []
  | _, [] => []
  | fuel + 1, b :: rest =>
    if b < 0x80 then Char.ofNat b :: utf8DecodeAux fuel rest
    else if b < 0xC2 then replChar :: utf8DecodeAux fuel rest
    else if b ≤ 0xDF then
      match rest with
      | [] => [replChar]
      | c1 :: rest1 =>
        if contByte c1 then
          Char.ofNat ((b - 0xC0) * 64 + (c1 - 0x80)) :: utf8DecodeAux fuel rest1
        else replChar :: utf8DecodeAux fuel (c1 :: rest1)
    else if b ≤ 0xEF then
      match rest with
      | [] => [replChar]
      | c1 :: rest1 =>
        if validCont1 b c1 then
          match rest1 with
          | [] => [replChar]
          | c2 :: rest2 =>
            if contByte c2 then
              Char.ofNat ((b - 0xE0) * 4096 + (c1 - 0x80) * 64 + (c2 - 0x80)) ::
                utf8DecodeAux fuel rest2
            else replChar :: utf8DecodeAux fuel (c2 :: rest2)
        else replChar :: utf8DecodeAux fuel (c1 :: rest1)
    else if b ≤ 0xF4 then
      match rest with
      | [] => [replChar]
      | c1 :: rest1 =>
        if validCont1 b c1 then
          match rest1 with
          | [] => [replChar]
          | c2 :: rest2 =>
            if contByte c2 then
              match rest2 with
              | [] => [replChar]
              | c3 :: rest3 =>
                if contByte c3 then
                  Char.ofNat ((b - 0xF0) * 262144 + (c1 - 0x80) * 4096 +
                      (c2 - 0x80) * 64 + (c3 - 0x80)) :: utf8DecodeAux fuel rest3
                else replChar :: utf8DecodeAux fuel (c3 :: rest3)
            else replChar :: utf8DecodeAux fuel (c2 :: rest2)
        else replChar :: utf8DecodeAux fuel (c1 :: rest1)
    else replChar :: utf8DecodeAux fuel rest

/-- `bytes.decode('utf-8', errors='replace')`: a total function — decoding
never raises, every ill-formed subsequence becomes replacement characters. -/
def utf8DecodeReplace (l : List Nat) : List Char :=
  utf8DecodeAux l.length l

/-- `extract_filename_from_header(data, offset)`: read the 2-byte
filename-length field at displacement 26, slice the filename bytes after
the 30-byte fixed header, decode with replacement. The bare `except:`
(returning `None`) can only be reached through `struct.error`, i.e. when
the buffer ends before `offset + 28`; slicing and replacing decoding are
total. -/
def extract_filename_from_header (data : List Nat) (offset : Nat) :
    Option String :=
  match unpack16 data (offset + 26) with
  | none => none
  | some filename_length =>
      some (String.mk
        (utf8DecodeReplace (pySlice data (offset + 30) (offset + 30 + filename_length))))

/-- The result record of `find_file_signatures`. -/
structure Signatures where
  local_headers : List Nat
  central_dir_headers : List Nat
  end_of_central_dir : Option Nat
  deriving Repr, DecidableEq

/-- `find_file_signatures`: scan the buffer for the three ZIP magics. -/
def find_file_signatures (data : List Nat) : Signatures :=
  { local_headers := findAll data LOCAL_FILE_HEADER
    central_dir_headers := findAll data CENTRAL_DIR_HEADER
    end_of_central_dir := pyRFind data END_OF_CENTRAL_DIR }

/-- Little-endian decimal digits of `n`, computed with explicit fuel so the
kernel can evaluate it. Agrees with `Nat.digits 10` (proved below). -/
def decDigitsAux : Nat → Nat → List Nat
  | 0, _ => []
  | _, 0 => []
  | fuel + 1, n + 1 => ((n + 1) % 10) :: decDigitsAux fuel ((n + 1) / 10)

/-- The character for one decimal digit. -/
def decDigitChar (d : Nat) : Char :=
  Char.ofNat (48 + d)

/-- Python `str(i)` for a natural number: its decimal notation. -/
def natToDecimal (n : Nat) : String :=
  if n = 0 then "0"
  else String.mk (((decDigitsAux n n).reverse).map decDigitChar)

/-- The synthesized name `f"recovered_file_{i}.bin"`. -/
def synthName (i : Nat) : String :=
  "recovered_file_" ++ natToDecimal i ++ ".bin"

/-- `if not filename: filename = f"recovered_file_{i}.bin"`: the synthesized
name replaces both a failed extraction (`None`) and an empty decoded name
(`""`), the two falsy cases. -/
def resolveName (fn : Option String) (i : Nat) : String :=
  match fn with
  | none => synthName i
  | some s => if s = "" then synthName i else s

/-- One recovered entry as written into the output container:
`new_zip.writestr(filename, file_data)`. -/
structure EntryRec where
  name : String
  payload : List Nat
  deriving Repr, DecidableEq

/-- One iteration of the `for i, offset in enumerate(...)` loop body of
`repair_zip`, under the outer `try`.

Arguments: the buffer, the full `signatures['local_headers']` list, the
index `i`, the current `offset`, and the current binding of the Python
local variable `filename_length` (`none` = still unbound).

Returns the per-entry outcome (`none` = an exception reached the outer
`except` and the entry was skipped) and the binding of `filename_length`
after the iteration. The binding is updated exactly where the source
assigns `filename_length = struct.unpack('<H', data[offset+26:offset+28])[0]`
and that unpack succeeds; in the last-entry `try` branch the source reads
`filename_length` without assigning it, so a `none` binding there raises
`NameError`, caught by the inner bare `except:`. -/
def processEntry (data hdrs : List Nat) (i offset : Nat) (fl : Option Nat) :
    Option EntryRec × Option Nat :=
  let filename := extract_filename_from_header data offset
  let name := resolveName filename i
  let next_offset := hdrs.find? (fun next_header => offset < next_header)
  match next_offset with
  | none =>
    -- inner `try`: declared-compressed-size branch
    let innerExcept : Option EntryRec × Option Nat :=
      -- inner `except`: 1 MiB fallback branch
      match unpack16 data (offset + 26) with
      | none => (none, fl)  -- struct.error escapes to the outer except
      | some fnl =>
        match unpack16 data (offset + 28) with
        | none => (none, some fnl)
        | some efl =>
          let file_data_offset := offset + 30 + fnl + efl
          (some ⟨name, pySlice data file_data_offset (file_data_offset + 1024 * 1024)⟩,
           some fnl)
    match unpack32 data (offset + 18) with
    | none => innerExcept
    | some compressed_size =>
      match unpack16 data (offset + 28) with
      | none => innerExcept
      | some efl =>
        match fl with
        | none => innerExcept  -- NameError: filename_length referenced before assignment
        | some fnl =>
          let file_data_offset := offset + 30 + fnl + efl
          (some ⟨name, pySlice data file_data_offset (file_data_offset + compressed_size)⟩,
           fl)
  | some no =>
    match unpack16 data (offset + 26) with
    | none => (none, fl)
    | some fnl =>
      match unpack16 data (offset + 28) with
      | none => (none, some fnl)
      | some efl =>
        let file_data_offset := offset + 30 + fnl + efl
        (some ⟨name, pySlice data file_data_offset no⟩, some fnl)

/-- The whole entry loop: processes every offset in order, threading the
`filename_length` binding, and collects one per-entry outcome per offset. -/
def runLoop (data hdrs : List Nat) : Nat → List Nat → Option Nat →
    List (Option EntryRec)
  | _, [], _ => []
  | i, offset :: rest, fl =>
    let step := processEntry data hdrs i offset fl
    step.1 :: runLoop data hdrs (i + 1) rest step.2

/-- `repair_zip(file_path, output_path)`: `none` models `return False` with
no output container created; `some (outputPath, results)` models the
container created at `outputPath` (`return True`), with one per-entry
outcome per discovered local-header offset. -/
def repair_zip (data : List Nat) (output_path : String) :
    Option (String × List (Option EntryRec)) :=
  let signatures := find_file_signatures data
  if signatures.local_headers.isEmpty then none
  else
    some (output_path,
      runLoop data signatures.local_headers 0 signatures.local_headers none)

/-! ## Helper lemmas: slicing and field reads -/

lemma pySlice_eq_nil {data : List Nat} {a b : Nat} (h : b ≤ a) :
    pySlice data a b = [] := by
  unfold pySlice
  apply List.drop_eq_nil_of_le
  have := List.length_take b data
  omega

lemma pySlice_of_length_le {data : List Nat} {a b : Nat} (h : data.length ≤ b) :
    pySlice data a b = data.drop a := by
  unfold pySlice
  rw [List.take_of_length_le h]

lemma pySlice_infix (data : List Nat) (a b : Nat) :
    pySlice data a b <:+: data := by
  refine ⟨(data.take b).take a, data.drop b, ?_⟩
  unfold pySlice
  rw [List.take_append_drop a (data.take b), List.take_append_drop b data]

lemma unpack16_none_iff {data : List Nat} {o : Nat} :
    unpack16 data o = none ↔ data.length < o + 2 := by
  unfold unpack16
  split <;> simp <;> omega

lemma unpack16_some_le {data : List Nat} {o v : Nat}
    (h : unpack16 data o = some v) : o + 2 ≤ data.length := by
  unfold unpack16 at h
  split at h
  · omega
  · exact absurd h (by simp)

lemma unpack32_isSome_of_le {data : List Nat} {o : Nat}
    (h : o + 4 ≤ data.length) : ∃ v, unpack32 data o = some v := by
  unfold unpack32
  rw [if_pos h]
  exact ⟨_, rfl⟩

/-! ## Helper lemmas: pattern matching and the forward scan -/

lemma matchesAt_true_iff {data pat : List Nat} {i : Nat} :
    matchesAt data pat i = true ↔ (data.drop i).take pat.length = pat := by
  simp [matchesAt]

lemma matchesAt_bound {data pat : List Nat} {i : Nat} (hp : pat ≠ [])
    (h : matchesAt data pat i = true) : i + pat.length ≤ data.length := by
  rw [matchesAt_true_iff] at h
  have hlen := congrArg List.length h
  simp [List.length_take] at hlen
  have hp' : 0 < pat.length := List.length_pos.2 hp
  omega

lemma take_four_iff {l : List Nat} {a b c e : Nat} :
    l.take 4 = [a, b, c, e] ↔ ∃ r, l = a :: b :: c :: e :: r := by
  rcases l with _ | ⟨x, _ | ⟨y, _ | ⟨z, _ | ⟨w, r⟩⟩⟩⟩ <;> simp

lemma matchesAt_four_iff {data : List Nat} {a b c e i : Nat} :
    matchesAt data [a, b, c, e] i = true ↔
      ∃ r, data.drop i = a :: b :: c :: e :: r := by
  rw [matchesAt_true_iff]
  exact take_four_iff

/-- If the last three bytes of a 4-byte pattern all differ from its first
byte, two distinct occurrences are at least 4 positions apart. This is why
the `offset += 4` advance in the scanning loop cannot skip an occurrence. -/
lemma no_overlap_of_head_ne {data : List Nat} {a b c e : Nat}
    (hb : b ≠ a) (hc : c ≠ a) (he : e ≠ a) {i j : Nat}
    (hi : matchesAt data [a, b, c, e] i = true)
    (hj : matchesAt data [a, b, c, e] j = true)
    (hij : i < j) : i + 4 ≤ j := by
  by_contra hlt
  obtain ⟨r, hr⟩ := matchesAt_four_iff.1 hi
  obtain ⟨s, hs⟩ := matchesAt_four_iff.1 hj
  have hcase : j = i + 1 ∨ j = i + 2 ∨ j = i + 3 := by omega
  rcases hcase with rfl | rfl | rfl
  · have h1 : (data.drop i).drop 1 = data.drop (i + 1) := by rw [List.drop_drop]
    rw [hr, hs] at h1
    simp at h1
    exact hb h1.1
  · have h1 : (data.drop i).drop 2 = data.drop (i + 2) := by rw [List.drop_drop]
    rw [hr, hs] at h1
    simp at h1
    exact hc h1.1
  · have h1 : (data.drop i).drop 3 = data.drop (i + 3) := by rw [List.drop_drop]
    rw [hr, hs] at h1
    simp at h1
    exact he h1.1

lemma pyFindAux_some {data pat : List Nat} :
    ∀ fuel i o, pyFindAux data pat i fuel = some o →
      i ≤ o ∧ o < i + fuel ∧ matchesAt data pat o = true ∧
        ∀ j, i ≤ j → j < o → matchesAt data pat j = false := by
  intro fuel
  induction fuel with
  | zero => intro i o h; simp [pyFindAux] at h
  | succ fuel ih =>
    intro i o h
    rw [pyFindAux] at h
    by_cases hm : matchesAt data pat i = true
    · rw [if_pos hm] at h
      cases h
      exact ⟨Nat.le_refl _, by omega, hm, fun j h1 h2 => by omega⟩
    · rw [if_neg hm] at h
      obtain ⟨h1, h2, h3, h4⟩ := ih (i + 1) o h
      refine ⟨by omega, by omega, h3, fun j hj1 hj2 => ?_⟩
      rcases Nat.eq_or_lt_of_le hj1 with rfl | hj
      · exact Bool.not_eq_true _ ▸ hm
      · exact h4 j hj hj2

lemma pyFindAux_none {data pat : List Nat} :
    ∀ fuel i, pyFindAux data pat i fuel = none →
      ∀ j, i ≤ j → j < i + fuel → matchesAt data pat j = false := by
  intro fuel
  induction fuel with
  | zero => intro i _ j h1 h2; omega
  | succ fuel ih =>
    intro i h j h1 h2
    rw [pyFindAux] at h
    by_cases hm : matchesAt data pat i = true
    · rw [if_pos hm] at h; cases h
    · rw [if_neg hm] at h
      rcases Nat.eq_or_lt_of_le h1 with rfl | hj
      · exact Bool.not_eq_true _ ▸ hm
      · exact ih (i + 1) h j hj (by omega)

lemma pyFind_some {data pat : List Nat} {start o : Nat}
    (h : pyFind data pat start = some o) :
    start ≤ o ∧ matchesAt data pat o = true ∧
      ∀ j, start ≤ j → j < o → matchesAt data pat j = false := by
  obtain ⟨h1, _, h3, h4⟩ := pyFindAux_some _ _ _ h
  exact ⟨h1, h3, h4⟩

lemma pyFind_none {data pat : List Nat} (hp : pat ≠ []) {start : Nat}
    (h : pyFind data pat start = none) :
    ∀ j, start ≤ j → matchesAt data pat j = false := by
  intro j hj
  by_cases hm : matchesAt data pat j = true
  · have hb := matchesAt_bound hp hm
    have hp' : 0 < pat.length := List.length_pos.2 hp
    exact absurd hm (by
      rw [Bool.not_eq_true]
      exact pyFindAux_none _ _ h j hj (by omega))
  · exact Bool.not_eq_true _ ▸ hm

section FindAllSpec

variable {data pat : List Nat}

lemma findAllFrom_sound :
    ∀ fuel start x, x ∈ findAllFrom data pat start fuel →
      start ≤ x ∧ matchesAt data pat x = true := by
  intro fuel
  induction fuel with
  | zero => intro start x h; simp [findAllFrom] at h
  | succ fuel ih =>
    intro start x h
    rw [findAllFrom] at h
    cases hf : pyFind data pat start with
    | none => rw [hf] at h; simp at h
    | some o =>
      rw [hf] at h
      obtain ⟨h1, h2, _⟩ := pyFind_some hf
      rcases List.mem_cons.1 h with rfl | h
      · exact ⟨h1, h2⟩
      · obtain ⟨hx1, hx2⟩ := ih _ _ h
        exact ⟨by omega, hx2⟩

variable (hp : pat ≠ [])
variable (hov : ∀ i j, matchesAt data pat i = true → matchesAt data pat j = true →
  i < j → i + 4 ≤ j)

include hp hov in
lemma findAllFrom_complete :
    ∀ fuel start, data.length + 1 ≤ start + fuel →
      ∀ x, start ≤ x → matchesAt data pat x = true →
        x ∈ findAllFrom data pat start fuel := by
  intro fuel
  induction fuel with
  | zero =>
    intro start hfuel x hx hm
    have hb := matchesAt_bound hp hm
    have hp' : 0 < pat.length := List.length_pos.2 hp
    omega
  | succ fuel ih =>
    intro start hfuel x hx hm
    rw [findAllFrom]
    cases hf : pyFind data pat start with
    | none =>
      have := pyFind_none hp hf x hx
      rw [hm] at this
      cases this
    | some o =>
      obtain ⟨h1, h2, h3⟩ := pyFind_some hf
      rcases Nat.lt_trichotomy x o with hxo | rfl | hxo
      · have := h3 x hx hxo
        rw [hm] at this
        cases this
      · exact List.mem_cons_self _ _
      · have h4 : o + 4 ≤ x := hov o x h2 hm hxo
        exact List.mem_cons_of_mem _ (ih (o + 4) (by omega) x h4 hm)

lemma findAllFrom_sorted :
    ∀ fuel start, List.Pairwise (· < ·) (findAllFrom data pat start fuel) := by
  intro fuel
  induction fuel with
  | zero => intro start; simp [findAllFrom]
  | succ fuel ih =>
    intro start
    rw [findAllFrom]
    cases hf : pyFind data pat start with
    | none => simp
    | some o =>
      refine List.pairwise_cons.2 ⟨fun y hy => ?_, ih _⟩
      have := (findAllFrom_sound _ _ _ hy).1
      omega

include hp hov in
lemma mem_findAll :
    ∀ x, x ∈ findAll data pat ↔ matchesAt data pat x = true := by
  intro x
  constructor
  · intro h; exact (findAllFrom_sound _ _ _ h).2
  · intro h
    exact findAllFrom_complete hp hov (data.length + 1) 0 (by omega) x (by omega) h

lemma sorted_findAll : List.Pairwise (· < ·) (findAll data pat) :=
  findAllFrom_sorted _ _

end FindAllSpec

/-! ## Helper lemmas: the backward scan -/

lemma rfindDown_some_spec {data pat : List Nat} :
    ∀ k o, rfindDown data pat k = some o →
      o ≤ k ∧ matchesAt data pat o = true ∧
        ∀ j, j ≤ k → o < j → matchesAt data pat j = false := by
  intro k
  induction k with
  | zero =>
    intro o h
    rw [rfindDown] at h
    by_cases hm : matchesAt data pat 0 = true
    · rw [if_pos hm] at h
      cases h
      exact ⟨Nat.le_refl _, hm, fun j h1 h2 => by omega⟩
    · rw [if_neg hm] at h; cases h
  | succ k ih =>
    intro o h
    rw [rfindDown] at h
    by_cases hm : matchesAt data pat (k + 1) = true
    · rw [if_pos hm] at h
      cases h
      exact ⟨Nat.le_refl _, hm, fun j h1 h2 => by omega⟩
    · rw [if_neg hm] at h
      obtain ⟨h1, h2, h3⟩ := ih o h
      refine ⟨by omega, h2, fun j hj1 hj2 => ?_⟩
      rcases Nat.eq_or_lt_of_le hj1 with rfl | hj
      · exact Bool.not_eq_true _ ▸ hm
      · exact h3 j (by omega) hj2

lemma rfindDown_none_spec {data pat : List Nat} :
    ∀ k, rfindDown data pat k = none →
      ∀ j, j ≤ k → matchesAt data pat j = false := by
  intro k
  induction k with
  | zero =>
    intro h j hj
    rw [rfindDown] at h
    by_cases hm : matchesAt data pat 0 = true
    · rw [if_pos hm] at h; cases h
    · rw [if_neg hm] at h
      have : j = 0 := by omega
      exact this ▸ Bool.not_eq_true _ ▸ hm
  | succ k ih =>
    intro h j hj
    rw [rfindDown] at h
    by_cases hm : matchesAt data pat (k + 1) = true
    · rw [if_pos hm] at h; cases h
    · rw [if_neg hm] at h
      rcases Nat.eq_or_lt_of_le hj with rfl | hj'
      · exact Bool.not_eq_true _ ▸ hm
      · exact ih h j (by omega)

lemma pyRFind_some_iff {data pat : List Nat} (hp : pat ≠ []) {o : Nat} :
    pyRFind data pat = some o ↔
      matchesAt data pat o = true ∧
        ∀ j, o < j → matchesAt data pat j = false := by
  have hp' : 0 < pat.length := List.length_pos.2 hp
  constructor
  · intro h
    obtain ⟨h1, h2, h3⟩ := rfindDown_some_spec _ _ h
    refine ⟨h2, fun j hj => ?_⟩
    by_cases hm : matchesAt data pat j = true
    · have := matchesAt_bound hp hm
      exact h3 j (by omega) hj
    · exact Bool.not_eq_true _ ▸ hm
  · rintro ⟨h1, h2⟩
    have hb := matchesAt_bound hp h1
    cases hf : pyRFind data pat with
    | none =>
      have := rfindDown_none_spec _ hf o (by omega)
      rw [h1] at this
      cases this
    | some o' =>
      obtain ⟨g1, g2, g3⟩ := rfindDown_some_spec _ _ hf
      rcases Nat.lt_trichotomy o o' with hlt | rfl | hlt
      · have := h2 o' hlt
        rw [g2] at this
        cases this
      · rfl
      · have := g3 o (by omega) hlt
        rw [h1] at this
        cases this

lemma pyRFind_none_iff {data pat : List Nat} (hp : pat ≠ []) :
    pyRFind data pat = none ↔ ∀ j, matchesAt data pat j = false := by
  have hp' : 0 < pat.length := List.length_pos.2 hp
  constructor
  · intro h j
    by_cases hm : matchesAt data pat j = true
    · have := matchesAt_bound hp hm
      exact rfindDown_none_spec _ h j (by omega)
    · exact Bool.not_eq_true _ ▸ hm
  · intro h
    cases hf : pyRFind data pat with
    | none => rfl
    | some o =>
      obtain ⟨_, g2, _⟩ := rfindDown_some_spec _ _ hf
      rw [h o] at g2
      cases g2

/-! ## The two forward-scanned magics have the no-self-overlap property -/

lemma lfh_no_overlap {data : List Nat} :
    ∀ i j, matchesAt data LOCAL_FILE_HEADER i = true →
      matchesAt data LOCAL_FILE_HEADER j = true → i < j → i + 4 ≤ j := by
  intro i j hi hj hij
  exact no_overlap_of_head_ne (by decide) (by decide) (by decide) hi hj hij

lemma cdh_no_overlap {data : List Nat} :
    ∀ i j, matchesAt data CENTRAL_DIR_HEADER i = true →
      matchesAt data CENTRAL_DIR_HEADER j = true → i < j → i + 4 ≤ j := by
  intro i j hi hj hij
  exact no_overlap_of_head_ne (by decide) (by decide) (by decide) hi hj hij

/-- The discovered local-header offsets, as `repair_zip` iterates them. -/
def localOffsets (data : List Nat) : List Nat :=
  (find_file_signatures data).local_headers

lemma mem_localOffsets {data : List Nat} :
    ∀ x, x ∈ localOffsets data ↔ matchesAt data LOCAL_FILE_HEADER x = true :=
  mem_findAll (by decide) lfh_no_overlap

lemma sorted_localOffsets (data : List Nat) :
    List.Pairwise (· < ·) (localOffsets data) :=
  sorted_findAll

/-! ## `find?` of the first strictly larger element on a sorted list -/

lemma find_gt_of_sorted :
    ∀ (l : List Nat), List.Pairwise (· < ·) l → ∀ k (hk : k + 1 < l.length),
      l.find? (fun y => l[k] < y) = some l[k + 1] := by
  intro l
  induction l with
  | nil => intro _ k hk; simp at hk
  | cons x rest ih =>
    intro hp k hk
    have hlt : ∀ y ∈ rest, x < y := (List.pairwise_cons.1 hp).1
    rcases Nat.eq_zero_or_pos k with rfl | hkpos
    · simp only [List.getElem_cons_zero, List.getElem_cons_succ]
      rw [List.find?_cons_of_neg _ (by simp)]
      rcases rest with _ | ⟨r0, rest'⟩
      · simp at hk
      · simp only [List.getElem_cons_zero]
        exact List.find?_cons_of_pos _ (by simp [hlt r0 (List.mem_cons_self _ _)])
    · obtain ⟨k', rfl⟩ : ∃ k', k = k' + 1 := ⟨k - 1, by omega⟩
      simp only [List.getElem_cons_succ]
      rw [List.find?_cons_of_neg _ ?_]
      · exact ih (List.pairwise_cons.1 hp).2 k'
          (by simp only [List.length_cons] at hk; omega)
      · have hk' : k' < rest.length := by
          simp only [List.length_cons] at hk
          omega
        have hxl : x < rest[k'] := hlt _ (List.getElem_mem _)
        simp only [decide_eq_true_eq]
        omega

lemma find_gt_last :
    ∀ (l : List Nat), List.Pairwise (· < ·) l → ∀ k (hk : k + 1 = l.length),
      l.find? (fun y => l[k] < y) = none := by
  intro l hp k hk
  rw [List.find?_eq_none]
  intro x hx
  obtain ⟨j, hj, rfl⟩ := List.mem_iff_getElem.1 hx
  simp only [decide_eq_true_eq, not_lt]
  rcases Nat.lt_trichotomy j k with hjk | rfl | hjk
  · exact Nat.le_of_lt (List.pairwise_iff_getElem.1 hp j k (by omega) (by omega) hjk)
  · exact Nat.le_refl _
  · omega

/-! ## Helper lemmas: decimal rendering is injective -/

lemma decDigitsAux_eq :
    ∀ fuel n, n ≤ fuel → decDigitsAux fuel n = Nat.digits 10 n := by
  intro fuel
  induction fuel with
  | zero =>
    intro n h
    have : n = 0 := by omega
    subst this
    simp [decDigitsAux]
  | succ fuel ih =>
    intro n h
    cases n with
    | zero => simp [decDigitsAux]
    | succ m =>
      rw [decDigitsAux, Nat.digits_def' (by norm_num : (1:ℕ) < 10) (Nat.succ_pos m)]
      have hdiv : (m + 1) / 10 < m + 1 := Nat.div_lt_self (Nat.succ_pos m) (by norm_num)
      rw [ih ((m + 1) / 10) (by omega)]

lemma decDigitChar_inj :
    ∀ d1 < 10, ∀ d2 < 10, decDigitChar d1 = decDigitChar d2 → d1 = d2 := by
  decide

lemma map_decDigitChar_inj :
    ∀ l1 l2 : List Nat, (∀ d ∈ l1, d < 10) → (∀ d ∈ l2, d < 10) →
      l1.map decDigitChar = l2.map decDigitChar → l1 = l2 := by
  intro l1
  induction l1 with
  | nil =>
    intro l2 _ _ h
    cases l2 with
    | nil => rfl
    | cons y t => simp at h
  | cons x t1 ih =>
    intro l2 h1 h2 h
    cases l2 with
    | nil => simp at h
    | cons y t2 =>
      simp only [List.map_cons, List.cons.injEq] at h
      have hx : x = y :=
        decDigitChar_inj x (h1 x (List.mem_cons_self _ _))
          y (h2 y (List.mem_cons_self _ _)) h.1
      rw [hx, ih t2 (fun d hd => h1 d (List.mem_cons_of_mem _ hd))
        (fun d hd => h2 d (List.mem_cons_of_mem _ hd)) h.2]

lemma natToDecimal_data (n : Nat) (hn : n ≠ 0) :
    (natToDecimal n).data = ((Nat.digits 10 n).reverse).map decDigitChar := by
  unfold natToDecimal
  rw [if_neg hn, decDigitsAux_eq n n (Nat.le_refl n)]

lemma natToDecimal_inj {m n : Nat}
    (h : (natToDecimal m).data = (natToDecimal n).data) : m = n := by
  rcases Nat.eq_zero_or_pos m with rfl | hm <;>
    rcases Nat.eq_zero_or_pos n with rfl | hn
  · rfl
  · exfalso
    rw [natToDecimal_data n (by omega)] at h
    have h0 : (natToDecimal 0).data = ['0'] := by decide
    rw [h0] at h
    have hlen : ((Nat.digits 10 n).reverse).length = 1 := by
      have := congrArg List.length h
      simpa using this.symm
    rw [List.length_reverse] at hlen
    obtain ⟨d, hd⟩ := List.length_eq_one.1 hlen
    rw [hd] at h
    simp only [List.reverse_cons, List.reverse_nil, List.nil_append,
      List.map_cons, List.map_nil] at h
    have hd10 : d < 10 :=
      Nat.digits_lt_base (by norm_num) (hd ▸ List.mem_cons_self _ _)
    have : d = 0 := decDigitChar_inj d hd10 0 (by norm_num) (by
      simpa using h.symm)
    rw [this] at hd
    have := Nat.ofDigits_digits 10 n
    rw [hd] at this
    simp [Nat.ofDigits] at this
    omega
  · exfalso
    rw [natToDecimal_data m (by omega)] at h
    have h0 : (natToDecimal 0).data = ['0'] := by decide
    rw [h0] at h
    have hlen : ((Nat.digits 10 m).reverse).length = 1 := by
      have := congrArg List.length h
      simpa using this
    rw [List.length_reverse] at hlen
    obtain ⟨d, hd⟩ := List.length_eq_one.1 hlen
    rw [hd] at h
    simp only [List.reverse_cons, List.reverse_nil, List.nil_append,
      List.map_cons, List.map_nil] at h
    have hd10 : d < 10 :=
      Nat.digits_lt_base (by norm_num) (hd ▸ List.mem_cons_self _ _)
    have : d = 0 := decDigitChar_inj d hd10 0 (by norm_num) (by
      simpa using h)
    rw [this] at hd
    have := Nat.ofDigits_digits 10 m
    rw [hd] at this
    simp [Nat.ofDigits] at this
    omega
  · rw [natToDecimal_data m (by omega), natToDecimal_data n (by omega)] at h
    rw [List.map_reverse, List.map_reverse] at h
    have h' := List.reverse_injective h
    have hdm : Nat.digits 10 m = Nat.digits 10 n :=
      map_decDigitChar_inj _ _
        (fun d hd => Nat.digits_lt_base (by norm_num) hd)
        (fun d hd => Nat.digits_lt_base (by norm_num) hd) h'
    have := Nat.ofDigits_digits 10 m
    rw [hdm, Nat.ofDigits_digits 10 n] at this
    omega

lemma synthName_inj {i j : Nat} (h : synthName i = synthName j) : i = j := by
  apply natToDecimal_inj
  have hd := congrArg String.data h
  unfold synthName at hd
  simp only [String.data_append, List.append_assoc] at hd
  have h1 := List.append_cancel_left hd
  exact List.append_cancel_right h1

/-! ## Helper lemmas: the entry loop -/

/-- The binding of the Python local `filename_length` after processing a
whole list of offsets (starting at index `i` with binding `fl`). -/
def flMany (data hdrs : List Nat) : Nat → List Nat → Option Nat → Option Nat
  | _, [], fl => fl
  | i, offset :: rest, fl =>
    flMany data hdrs (i + 1) rest (processEntry data hdrs i offset fl).2

lemma runLoop_length (data hdrs : List Nat) :
    ∀ (offsets : List Nat) (i : Nat) (fl : Option Nat),
      (runLoop data hdrs i offsets fl).length = offsets.length := by
  intro offsets
  induction offsets with
  | nil => intro i fl; rfl
  | cons o rest ih => intro i fl; simp [runLoop, ih]

lemma runLoop_getElem (data hdrs : List Nat) :
    ∀ (offsets : List Nat) (i : Nat) (fl : Option Nat) (k : Nat)
      (hk : k < offsets.length),
      (runLoop data hdrs i offsets fl)[k]? =
        some (processEntry data hdrs (i + k) offsets[k]
          (flMany data hdrs i (offsets.take k) fl)).1 := by
  intro offsets
  induction offsets with
  | nil => intro i fl k hk; simp at hk
  | cons o rest ih =>
    intro i fl k hk
    cases k with
    | zero => simp [runLoop, flMany]
    | succ k' =>
      have hk' : k' < rest.length := by
        simp only [List.length_cons] at hk
        omega
      simp only [runLoop, List.getElem?_cons_succ, List.getElem_cons_succ,
        List.take_succ_cons]
      rw [ih (i + 1) _ k' hk']
      have : i + (k' + 1) = i + 1 + k' := by omega
      rw [this]
      rfl

lemma repair_zip_eq_some {data : List Nat} {out : String}
    (h : localOffsets data ≠ []) :
    repair_zip data out =
      some (out, runLoop data (localOffsets data) 0 (localOffsets data) none) := by
  unfold repair_zip
  rw [if_neg]
  · rfl
  · simp only [List.isEmpty_iff]
    exact h

lemma repair_zip_eq_none_iff {data : List Nat} {out : String} :
    repair_zip data out = none ↔ localOffsets data = [] := by
  constructor
  · intro h
    by_contra hne
    rw [repair_zip_eq_some hne] at h
    cases h
  · intro hnil
    unfold repair_zip
    rw [if_pos]
    simp only [List.isEmpty_iff]
    exact hnil

lemma repair_zip_some_shape {data : List Nat} {out p : String}
    {res : List (Option EntryRec)}
    (h : repair_zip data out = some (p, res)) :
    p = out ∧ res = runLoop data (localOffsets data) 0 (localOffsets data) none ∧
      localOffsets data ≠ [] := by
  have hne : localOffsets data ≠ [] := by
    intro hnil
    rw [repair_zip_eq_none_iff.2 hnil] at h
    cases h
  rw [repair_zip_eq_some hne] at h
  obtain ⟨h1, h2⟩ := Prod.mk.injEq .. ▸ Option.some.inj h
  exact ⟨h1.symm, h2.symm, hne⟩

lemma processEntry_of_find_some {data hdrs : List Nat} {i offset no fnl efl : Nat}
    {fl : Option Nat}
    (hno : hdrs.find? (fun next_header => offset < next_header) = some no)
    (hfnl : unpack16 data (offset + 26) = some fnl)
    (hefl : unpack16 data (offset + 28) = some efl) :
    processEntry data hdrs i offset fl =
      (some ⟨resolveName (extract_filename_from_header data offset) i,
         pySlice data (offset + 30 + fnl + efl) no⟩, some fnl) := by
  simp only [processEntry, hno, hfnl, hefl]

lemma processEntry_of_find_none_fl_none {data hdrs : List Nat}
    {i offset fnl efl : Nat}
    (hno : hdrs.find? (fun next_header => offset < next_header) = none)
    (hfnl : unpack16 data (offset + 26) = some fnl)
    (hefl : unpack16 data (offset + 28) = some efl) :
    processEntry data hdrs i offset none =
      (some ⟨resolveName (extract_filename_from_header data offset) i,
         pySlice data (offset + 30 + fnl + efl)
           (offset + 30 + fnl + efl + 1024 * 1024)⟩, some fnl) := by
  have h22 : offset + 18 + 4 ≤ data.length := by
    have := unpack16_some_le hefl
    omega
  obtain ⟨cs, hcs⟩ := unpack32_isSome_of_le h22
  simp only [processEntry, hno, hfnl, hefl, hcs]

lemma processEntry_success_span {data hdrs : List Nat} {i offset : Nat}
    {fl : Option Nat} {e : EntryRec}
    (h : (processEntry data hdrs i offset fl).1 = some e) :
    ∃ s ed, e.payload = pySlice data s ed ∧ offset + 30 ≤ s ∧
      ∀ no, hdrs.find? (fun next_header => offset < next_header) = some no →
        ed ≤ no := by
  obtain ⟨nm, pl⟩ := e
  cases hno : hdrs.find? (fun next_header => offset < next_header) with
  | some no =>
    cases h26 : unpack16 data (offset + 26) with
    | none => simp [processEntry, hno, h26] at h
    | some fnl =>
      cases h28 : unpack16 data (offset + 28) with
      | none => simp [processEntry, hno, h26, h28] at h
      | some efl =>
        rw [processEntry_of_find_some hno h26 h28] at h
        simp only [Option.some.injEq, EntryRec.mk.injEq] at h
        refine ⟨offset + 30 + fnl + efl, no, h.2.symm, by omega, ?_⟩
        intro no' hno'
        obtain rfl := Option.some.inj hno'
        exact Nat.le_refl _
  | none =>
    have hvac : ∀ no : Nat, (some no : Option Nat) = some no → True :=
      fun _ _ => trivial
    cases h26 : unpack16 data (offset + 26) with
    | none =>
      cases h32 : unpack32 data (offset + 18) with
      | none => simp [processEntry, hno, h32, h26] at h
      | some cs =>
        cases h28 : unpack16 data (offset + 28) with
        | none => simp [processEntry, hno, h32, h28, h26] at h
        | some efl =>
          cases fl with
          | none => simp [processEntry, hno, h32, h28, h26] at h
          | some fnl0 =>
            simp only [processEntry, hno, h32, h28,
              Option.some.injEq, EntryRec.mk.injEq] at h
            exact ⟨offset + 30 + fnl0 + efl, _, h.2.symm, by omega,
              fun no hcontra => by cases hcontra⟩
    | some fnl =>
      cases h28 : unpack16 data (offset + 28) with
      | none =>
        exfalso
        cases h32 : unpack32 data (offset + 18) with
        | none => simp [processEntry, hno, h32, h26, h28] at h
        | some cs =>
          cases fl with
          | none => simp [processEntry, hno, h32, h26, h28] at h
          | some fnl0 => simp [processEntry, hno, h32, h26, h28] at h
      | some efl =>
        cases fl with
        | none =>
          rw [processEntry_of_find_none_fl_none hno h26 h28] at h
          simp only [Option.some.injEq, EntryRec.mk.injEq] at h
          exact ⟨offset + 30 + fnl + efl, _, h.2.symm, by omega,
            fun no hcontra => by cases hcontra⟩
        | some fnl0 =>
          cases h32 : unpack32 data (offset + 18) with
          | none =>
            simp only [processEntry, hno, h32, h26, h28,
              Option.some.injEq, EntryRec.mk.injEq] at h
            exact ⟨offset + 30 + fnl + efl, _, h.2.symm, by omega,
              fun no hcontra => by cases hcontra⟩
          | some cs =>
            simp only [processEntry, hno, h32, h26, h28,
              Option.some.injEq, EntryRec.mk.injEq] at h
            exact ⟨offset + 30 + fnl0 + efl, _, h.2.symm, by omega,
              fun no hcontra => by cases hcontra⟩

lemma extract_none_iff {data : List Nat} {offset : Nat} :
    extract_filename_from_header data offset = none ↔
      data.length < offset + 28 := by
  unfold extract_filename_from_header
  cases h : unpack16 data (offset + 26) with
  | none =>
    have := unpack16_none_iff.1 h
    constructor
    · intro _; omega
    · intro _; rfl
  | some fnl =>
    have := unpack16_some_le h
    constructor
    · intro hc; cases hc
    · intro hlen; omega

/-! ## The claims -/

/-- **C3.** The signature scanner returns exactly the byte offsets at which
the local-file-header magic occurs, in strictly ascending order with no
offset reported twice, likewise for central-directory-header offsets, and
returns the offset of the last occurrence of the end-of-central-directory
magic, or `none` when there is no occurrence. -/
theorem claim_C3 (data : List Nat) :
    (∀ i, i ∈ (find_file_signatures data).local_headers ↔
        matchesAt data LOCAL_FILE_HEADER i = true)
  ∧ List.Pairwise (· < ·) (find_file_signatures data).local_headers
  ∧ (find_file_signatures data).local_headers.Nodup
  ∧ (∀ i, i ∈ (find_file_signatures data).central_dir_headers ↔
        matchesAt data CENTRAL_DIR_HEADER i = true)
  ∧ List.Pairwise (· < ·) (find_file_signatures data).central_dir_headers
  ∧ (find_file_signatures data).central_dir_headers.Nodup
  ∧ (∀ o, (find_file_signatures data).end_of_central_dir = some o ↔
        matchesAt data END_OF_CENTRAL_DIR o = true ∧
          ∀ j, o < j → matchesAt data END_OF_CENTRAL_DIR j = false)
  ∧ ((find_file_signatures data).end_of_central_dir = none ↔
        ∀ j, matchesAt data END_OF_CENTRAL_DIR j = false) := by
  refine ⟨mem_findAll (by decide) lfh_no_overlap, sorted_findAll,
    List.Pairwise.imp (fun h => Nat.ne_of_lt h) sorted_findAll,
    mem_findAll (by decide) cdh_no_overlap, sorted_findAll,
    List.Pairwise.imp (fun h => Nat.ne_of_lt h) sorted_findAll,
    fun o => pyRFind_some_iff (by decide), pyRFind_none_iff (by decide)⟩

/-- **C4.** The repair pass returns failure and creates no output container
if and only if the buffer contains zero local-file-header signatures;
whenever at least one is found it returns success (a container), even if
entries failed. -/
theorem claim_C4 (data : List Nat) (out : String) :
    (repair_zip data out = none ↔
        ∀ i, matchesAt data LOCAL_FILE_HEADER i = false)
  ∧ ∀ p res, repair_zip data out = some (p, res) →
      p = out ∧ res.length = (localOffsets data).length ∧
        localOffsets data ≠ [] := by
  constructor
  · rw [repair_zip_eq_none_iff, List.eq_nil_iff_forall_not_mem]
    constructor
    · intro h i
      have := h i
      rw [mem_localOffsets] at this
      exact Bool.not_eq_true _ ▸ this
    · intro h i hi
      rw [mem_localOffsets i, h i] at hi
      cases hi
  · intro p res h
    obtain ⟨h1, h2, h3⟩ := repair_zip_some_shape h
    exact ⟨h1, by rw [h2, runLoop_length], h3⟩

/-- **C8.** The recovered entries (and the success verdict) are a
deterministic function of the input bytes alone: the per-entry outcome
list produced by `repair_zip` does not depend on the output-path argument,
and re-running on the same buffer yields the identical value. -/
theorem claim_C8 (data : List Nat) (out1 out2 : String) :
    Option.map Prod.snd (repair_zip data out1) =
        Option.map Prod.snd (repair_zip data out2)
  ∧ ((repair_zip data out1).isSome ↔ (repair_zip data out2).isSome) := by
  by_cases h : localOffsets data = []
  · rw [repair_zip_eq_none_iff.2 h, repair_zip_eq_none_iff.2 h]
    exact ⟨rfl, Iff.rfl⟩
  · rw [repair_zip_eq_some h, repair_zip_eq_some h]
    exact ⟨rfl, Iff.rfl⟩

/-- A buffer containing exactly one local file header at offset 0, with
filename `a.txt` (filename length 5, extra-field length 0), declared
compressed size 5, and ten bytes after the filename. The declared-size
policy would recover the 5 bytes `[1,2,3,4,5]`. -/
def lastEntryBuf : List Nat :=
  [0x50, 0x4B, 0x03, 0x04, 0, 0, 0, 0, 0, 0, 0, 0, 0, 0, 0, 0, 0, 0,
   5, 0, 0, 0,
   0, 0, 0, 0,
   5, 0,
   0, 0,
   97, 46, 116, 120, 116,
   1, 2, 3, 4, 5, 6, 7, 8, 9, 10]

/-- **C1** (evaluation at the failing input). The buffer has exactly one
local header, whose length fields and declared compressed size (5) are
readable and imply a span within the buffer; the declared-size policy
would give the payload `[1,2,3,4,5]`, but `repair_zip` emits all ten
trailing bytes: the `try` branch using the declared size reads the
unassigned local variable `filename_length`, raising `NameError` on the
first iteration, so control diverts to the 1 MiB fallback. -/
theorem claim_C1_eval :
    (find_file_signatures lastEntryBuf).local_headers = [0]
  ∧ unpack32 lastEntryBuf 18 = some 5
  ∧ unpack16 lastEntryBuf 26 = some 5
  ∧ unpack16 lastEntryBuf 28 = some 0
  ∧ pySlice lastEntryBuf (0 + 30 + 5 + 0) (0 + 30 + 5 + 0 + 5) = [1, 2, 3, 4, 5]
  ∧ repair_zip lastEntryBuf "fixed.zip" =
      some ("fixed.zip", [some ⟨"a.txt", [1, 2, 3, 4, 5, 6, 7, 8, 9, 10]⟩])
  ∧ ([1, 2, 3, 4, 5, 6, 7, 8, 9, 10] : List Nat) ≠ [1, 2, 3, 4, 5] := by
  decide

/-- **C6.** Filename extraction fails exactly when the buffer ends before
`offset + 28` (the filename-length field cannot be fully read); decoding
never causes failure — a successful read always returns the replacement
decoding of the filename bytes; on extraction failure or empty decoded
text the entry gets the synthesized `recovered_file_<i>.bin` name, and
those names are pairwise distinct across distinct indices. -/
theorem claim_C6 (data : List Nat) (offset : Nat) :
    (extract_filename_from_header data offset = none ↔
        data.length < offset + 28)
  ∧ (∀ fnl, unpack16 data (offset + 26) = some fnl →
      extract_filename_from_header data offset = some (String.mk
        (utf8DecodeReplace (pySlice data (offset + 30) (offset + 30 + fnl)))))
  ∧ (∀ i, resolveName none i = synthName i ∧
      resolveName (some "") i = synthName i ∧
      ∀ s, s ≠ "" → resolveName (some s) i = s)
  ∧ ∀ i j, i ≠ j → synthName i ≠ synthName j := by
  refine ⟨extract_none_iff, ?_, ?_, ?_⟩
  · intro fnl hfnl
    unfold extract_filename_from_header
    rw [hfnl]
  · intro i
    refine ⟨rfl, rfl, ?_⟩
    intro s hs
    simp [resolveName, hs]
  · intro i j hij hcontra
    exact hij (synthName_inj hcontra)

/-- **C2.** For every local-header offset that is not the last one found
and whose length fields are readable, the entry's payload is the slice
`[offset + 30 + filename_length + extra_field_length, next_offset)` of the
buffer, where `next_offset` is the smallest local-header offset strictly
greater than the current one (the declared compressed size is not read in
this branch — the payload is determined by the two length fields and the
next offset alone). -/
theorem claim_C2 (data : List Nat) (out p : String)
    (res : List (Option EntryRec)) (k fnl efl : Nat)
    (hrep : repair_zip data out = some (p, res))
    (hk : k + 1 < (localOffsets data).length)
    (hfnl : unpack16 data ((localOffsets data)[k] + 26) = some fnl)
    (hefl : unpack16 data ((localOffsets data)[k] + 28) = some efl) :
    (∃ name, res[k]? = some (some ⟨name,
        pySlice data ((localOffsets data)[k] + 30 + fnl + efl)
          ((localOffsets data)[k + 1])⟩))
  ∧ ∀ j ∈ localOffsets data, (localOffsets data)[k] < j →
      (localOffsets data)[k + 1] ≤ j := by
  obtain ⟨-, hres, hne⟩ := repair_zip_some_shape hrep
  subst hres
  have hsorted := sorted_localOffsets data
  have hfind := find_gt_of_sorted _ hsorted k hk
  constructor
  · have hg := runLoop_getElem data (localOffsets data) (localOffsets data)
      0 none k (by omega)
    rw [processEntry_of_find_some hfind hfnl hefl] at hg
    simp only [Nat.zero_add] at hg
    exact ⟨_, hg⟩
  · intro j hj hgt
    obtain ⟨jj, hjj, rfl⟩ := List.mem_iff_getElem.1 hj
    rcases Nat.lt_trichotomy jj (k + 1) with hlt | rfl | hlt
    · exfalso
      rcases Nat.lt_or_ge jj k with hjk | hjk
      · have := List.pairwise_iff_getElem.1 hsorted jj k (by omega) (by omega) hjk
        omega
      · have : jj = k := by omega
        subst this
        omega
    · exact Nat.le_refl _
    · exact Nat.le_of_lt
        (List.pairwise_iff_getElem.1 hsorted (k + 1) jj (by omega) hjj hlt)

/-- **C7.** Per-entry failures are contained: the loop produces one outcome
for every discovered offset, each offset is processed (its outcome is the
result of the loop body at that offset), and the overall success verdict
depends only on whether any local header was found, not on per-entry
outcomes. -/
theorem claim_C7 (data : List Nat) (out : String) :
    ((repair_zip data out).isSome = true ↔ localOffsets data ≠ [])
  ∧ ∀ p res, repair_zip data out = some (p, res) →
      res.length = (localOffsets data).length ∧
      ∀ k (hk : k < (localOffsets data).length), ∃ fl,
        res[k]? = some (processEntry data (localOffsets data) k
          ((localOffsets data)[k]) fl).1 := by
  constructor
  · by_cases h : localOffsets data = []
    · rw [repair_zip_eq_none_iff.2 h]
      simp [h]
    · rw [repair_zip_eq_some h]
      simp [h]
  · intro p res h
    obtain ⟨-, hres, hne⟩ := repair_zip_some_shape h
    subst hres
    refine ⟨runLoop_length data _ _ _ _, ?_⟩
    intro k hk
    have hg := runLoop_getElem data (localOffsets data) (localOffsets data)
      0 none k hk
    simp only [Nat.zero_add] at hg
    exact ⟨_, hg⟩

/-- **C9.** When the scan finds exactly one local-header offset and its
length fields are readable, the single recovered entry's payload is always
the 1 MiB slice `data[payload_start : payload_start + 1048576]` (clipped by
slicing), with `payload_start` computed from the entry's own length fields.
The declared compressed size never determines the payload here: the
declared-size branch reads `filename_length`, unbound on the first
iteration, and the `NameError` diverts to the fallback. -/
theorem claim_C9 (data : List Nat) (out : String) (offset fnl efl : Nat)
    (h1 : localOffsets data = [offset])
    (hfnl : unpack16 data (offset + 26) = some fnl)
    (hefl : unpack16 data (offset + 28) = some efl) :
    ∃ name, repair_zip data out = some (out,
      [some ⟨name, pySlice data (offset + 30 + fnl + efl)
        (offset + 30 + fnl + efl + 1048576)⟩]) := by
  have hne : localOffsets data ≠ [] := by rw [h1]; simp
  have hfind : ([offset] : List Nat).find?
      (fun next_header => offset < next_header) = none := by
    simp
  refine ⟨resolveName (extract_filename_from_header data offset) 0, ?_⟩
  rw [repair_zip_eq_some hne, h1]
  rw [show runLoop data [offset] 0 [offset] none =
      [(processEntry data [offset] 0 offset none).1] from rfl]
  rw [processEntry_of_find_none_fl_none hfind hfnl hefl]

/-- **C5.** Every payload span is clipped to the buffer: an end beyond the
buffer length yields exactly the bytes up to the buffer end, a span with
`start ≥ end` yields the empty payload, and every slice is a contiguous
infix of the buffer (the slicing operation is total — no negative-length
or out-of-range error exists). In particular, when the next local header
starts exactly at an entry's `payload_start`, that entry's payload is
empty. -/
theorem claim_C5 (data : List Nat) :
    (∀ a b, data.length ≤ b → pySlice data a b = pySlice data a data.length)
  ∧ (∀ a b, b ≤ a → pySlice data a b = [])
  ∧ (∀ a b, pySlice data a b <:+: data)
  ∧ ∀ out p res k fnl efl, repair_zip data out = some (p, res) →
      ∀ hk : k + 1 < (localOffsets data).length,
        unpack16 data ((localOffsets data)[k] + 26) = some fnl →
        unpack16 data ((localOffsets data)[k] + 28) = some efl →
        (localOffsets data)[k + 1] = (localOffsets data)[k] + 30 + fnl + efl →
        ∃ name, res[k]? = some (some ⟨name, []⟩) := by
  refine ⟨?_, ?_, pySlice_infix data, ?_⟩
  · intro a b hb
    rw [pySlice_of_length_le hb, pySlice_of_length_le (Nat.le_refl _)]
  · intro a b hba
    exact pySlice_eq_nil hba
  · intro out p res k fnl efl hrep hk hfnl hefl hadj
    obtain ⟨-, hres, hne⟩ := repair_zip_some_shape hrep
    subst hres
    have hsorted := sorted_localOffsets data
    have hfind := find_gt_of_sorted _ hsorted k hk
    have hg := runLoop_getElem data (localOffsets data) (localOffsets data)
      0 none k (by omega)
    rw [processEntry_of_find_some hfind hfnl hefl] at hg
    simp only [Nat.zero_add] at hg
    rw [hadj, pySlice_eq_nil (Nat.le_refl _)] at hg
    exact ⟨_, hg⟩

/-- **C10.** Within one repair run, the payload byte spans of distinct
successfully recovered entries are pairwise disjoint: the earlier entry's
slice ends at or before the later entry's local-header offset, and the
later entry's slice starts strictly after that offset, so no byte position
of the buffer contributes to two different payloads. -/
theorem claim_C10 (data : List Nat) (out p : String)
    (res : List (Option EntryRec)) (k l : Nat) (e1 e2 : EntryRec)
    (hrep : repair_zip data out = some (p, res))
    (hkl : k < l) (hl : l < (localOffsets data).length)
    (h1 : res[k]? = some (some e1)) (h2 : res[l]? = some (some e2)) :
    ∃ a b c d, e1.payload = pySlice data a b ∧ e2.payload = pySlice data c d ∧
      b ≤ (localOffsets data)[l] ∧ (localOffsets data)[l] < c := by
  obtain ⟨-, hres, hne⟩ := repair_zip_some_shape hrep
  subst hres
  have hsorted := sorted_localOffsets data
  have hk : k < (localOffsets data).length := by omega
  have hg1 := runLoop_getElem data (localOffsets data) (localOffsets data)
    0 none k hk
  have hg2 := runLoop_getElem data (localOffsets data) (localOffsets data)
    0 none l hl
  have p1 := Option.some.inj (hg1.symm.trans h1)
  have p2 := Option.some.inj (hg2.symm.trans h2)
  obtain ⟨s1, ed1, hpay1, hs1, hbound1⟩ := processEntry_success_span p1
  obtain ⟨s2, ed2, hpay2, hs2, hbound2⟩ := processEntry_success_span p2
  have hk1 : k + 1 < (localOffsets data).length := by omega
  have hfind := find_gt_of_sorted _ hsorted k hk1
  have hed1 : ed1 ≤ (localOffsets data)[k + 1] := hbound1 _ hfind
  have hmono : (localOffsets data)[k + 1] ≤ (localOffsets data)[l] := by
    rcases Nat.eq_or_lt_of_le (Nat.succ_le_of_lt hkl) with heq | hlt
    · exact Nat.le_of_eq (by congr 1)
    · exact Nat.le_of_lt
        (List.pairwise_iff_getElem.1 hsorted (k + 1) l (by omega) hl hlt)
  exact ⟨s1, ed1, s2, ed2, hpay1, hpay2, by omega, by omega⟩

/-! ## Concrete witnesses -/

/-- Two adjacent local headers: header B's signature starts exactly at
header A's `payload_start` (A has empty filename and extra field). -/
def adjBuf : List Nat :=
  [0x50, 0x4B, 0x03, 0x04, 0, 0, 0, 0, 0, 0, 0, 0, 0, 0, 0, 0, 0, 0,
   0, 0, 0, 0, 0, 0, 0, 0, 0, 0, 0, 0,
   0x50, 0x4B, 0x03, 0x04]

/-- Header A (filename `x`, two payload bytes `9, 9`) followed by header
B's signature at offset 33, with nothing after it. -/
def twoHdrBuf : List Nat :=
  [0x50, 0x4B, 0x03, 0x04, 0, 0, 0, 0, 0, 0, 0, 0, 0, 0, 0, 0, 0, 0,
   0, 0, 0, 0, 0, 0, 0, 0, 1, 0, 0, 0,
   120, 9, 9,
   0x50, 0x4B, 0x03, 0x04]

/-- Like `twoHdrBuf`, but header B at offset 33 is a full 30-byte header,
so the last entry also succeeds (through the stale-`filename_length`
declared-size branch). -/
def twoFullHdrBuf : List Nat :=
  [0x50, 0x4B, 0x03, 0x04, 0, 0, 0, 0, 0, 0, 0, 0, 0, 0, 0, 0, 0, 0,
   0, 0, 0, 0, 0, 0, 0, 0, 1, 0, 0, 0,
   120, 9, 9,
   0x50, 0x4B, 0x03, 0x04, 0, 0, 0, 0, 0, 0, 0, 0, 0, 0, 0, 0, 0, 0,
   0, 0, 0, 0, 0, 0, 0, 0, 0, 0, 0, 0]

/-- One local header (filename `b.txt`, declared size 1), three bytes of
payload region after the filename. -/
def singleHdrBuf : List Nat :=
  [0x50, 0x4B, 0x03, 0x04, 0, 0, 0, 0, 0, 0, 0, 0, 0, 0, 0, 0, 0, 0,
   1, 0, 0, 0, 0, 0, 0, 0, 5, 0, 0, 0,
   98, 46, 116, 120, 116,
   7, 8, 9]

theorem claim_C3_witness :
    0 ∈ (find_file_signatures [0x50, 0x4B, 0x03, 0x04]).local_headers :=
  ((claim_C3 [0x50, 0x4B, 0x03, 0x04]).1 0).2 (by decide)

theorem claim_C4_witness : repair_zip [1, 2, 3] "o" = none :=
  (claim_C4 [1, 2, 3] "o").1.2 (fun i => by
    by_cases hm : matchesAt [1, 2, 3] LOCAL_FILE_HEADER i = true
    · have hb := matchesAt_bound (by decide) hm
      simp [LOCAL_FILE_HEADER] at hb
    · exact Bool.not_eq_true _ ▸ hm)

theorem claim_C2_witness :
    repair_zip twoHdrBuf "o" = some ("o", [some ⟨"x", [9, 9]⟩, none])
  ∧ ((∃ name, ([some (⟨"x", [9, 9]⟩ : EntryRec), none])[0]? =
        some (some ⟨name, [9, 9]⟩))
      ∧ ∀ j ∈ localOffsets twoHdrBuf, 0 < j → 33 ≤ j) :=
  ⟨by decide,
   claim_C2 twoHdrBuf "o" "o" [some ⟨"x", [9, 9]⟩, none] 0 1 0
     (by decide) (by decide) (by decide) (by decide)⟩

theorem claim_C5_witness :
    repair_zip adjBuf "o" =
        some ("o", [some ⟨"recovered_file_0.bin", []⟩, none])
  ∧ ∃ name, ([some (⟨"recovered_file_0.bin", []⟩ : EntryRec), none])[0]? =
      some (some ⟨name, []⟩) :=
  ⟨by decide,
   (claim_C5 adjBuf).2.2.2 "o" "o" [some ⟨"recovered_file_0.bin", []⟩, none]
     0 0 0 (by decide) (by decide) (by decide) (by decide) (by decide)⟩

theorem claim_C6_witness : synthName 3 ≠ synthName 5 :=
  (claim_C6 [] 0).2.2.2 3 5 (by decide)

theorem claim_C7_witness :
    ∃ fl, ([(none : Option EntryRec)])[0]? =
      some (processEntry [0x50, 0x4B, 0x03, 0x04]
        (localOffsets [0x50, 0x4B, 0x03, 0x04]) 0
        ((localOffsets [0x50, 0x4B, 0x03, 0x04]).get ⟨0, by decide⟩) fl).1 :=
  ((claim_C7 [0x50, 0x4B, 0x03, 0x04] "o").2 "o" [none] (by decide)).2 0
    (by decide)

theorem claim_C9_witness :
    localOffsets singleHdrBuf = [0]
  ∧ unpack16 singleHdrBuf 26 = some 5
  ∧ unpack16 singleHdrBuf 28 = some 0
  ∧ ∃ name, repair_zip singleHdrBuf "o" =
      some ("o", [some ⟨name, [7, 8, 9]⟩]) :=
  ⟨by decide, by decide, by decide,
   claim_C9 singleHdrBuf "o" 0 5 0 (by decide) (by decide) (by decide)⟩

theorem claim_C10_witness :
    repair_zip twoFullHdrBuf "o" =
        some ("o", [some ⟨"x", [9, 9]⟩, some ⟨"recovered_file_1.bin", []⟩])
  ∧ ∃ a b c d, ([9, 9] : List Nat) = pySlice twoFullHdrBuf a b ∧
      ([] : List Nat) = pySlice twoFullHdrBuf c d ∧ b ≤ 33 ∧ 33 < c :=
  ⟨by decide,
   claim_C10 twoFullHdrBuf "o" "o"
     [some ⟨"x", [9, 9]⟩, some ⟨"recovered_file_1.bin", []⟩] 0 1
     ⟨"x", [9, 9]⟩ ⟨"recovered_file_1.bin", []⟩
     (by decide) (by decide) (by decide) (by decide) (by decide)⟩

end Zipfix
